import Mathlib

/-!
Shallow embedding of `rust-cloc` (`src/main.rs`): a line-counting tool with
recursive file discovery, per-file line classification, and (optionally
parallel) associative aggregation of per-file statistics, optionally keyed by
file extension.

Modelling conventions:
* A line read from a `BufReader::lines` iterator either yields a string
  (`LineRead.ok`) or an I/O error (`LineRead.err`).
* An `OsStr` (the platform string of a path component) is a sequence of
  units, each either a valid Unicode character or an invalid byte sequence;
  `to_str` succeeds exactly when no invalid unit is present.
* A file as seen by the counter is its path together with the sequence of
  line-read outcomes its reader produces.
* Rayon's parallel `fold`/`reduce` is modelled by an arbitrary split tree
  (`Sched`) whose leaves are contiguous chunks of the file list, folded
  sequentially, and whose nodes merge partial results; this covers every
  thread count and scheduling order.
* Rust's `HashMap<String, Results>` is modelled as an association list with
  unique keys; map identity is stated via `lookupExt` (element-for-element
  equality of the key/value mapping, insertion order being irrelevant).
-/

/-- A string, modelled as its list of characters. -/
abbrev Str := List Char

/-- One unit of an OS string: a valid Unicode character or an invalid byte
sequence (which makes UTF-8 conversion fail). -/
inductive OsUnit where
  | ch (c : Char)
  | invalid
  deriving DecidableEq, Repr

/-- An OS string (`std::ffi::OsStr`): a sequence of units. -/
abbrev OsStr := List OsUnit

/-- A filesystem path, reduced to what `get_ext` consumes: its final
component (`Path::file_name`), when one exists. -/
structure RPath where
  fileName : Option OsStr
  deriving DecidableEq, Repr

/-- Outcome of reading one line from a `BufReader::lines` iterator. -/
inductive LineRead where
  | ok (line : Str)
  | err
  deriving DecidableEq, Repr

/-- A file as consumed by `count_lines_in_file`: its path and the sequence of
line-read outcomes its buffered reader yields. -/
structure RFile where
  path : RPath
  lines : List LineRead
  deriving DecidableEq, Repr

/-- `Results`: holds the number of empty and non-empty lines in a file. -/
structure Results where
  lines_of_code : Nat
  empty_lines : Nat
  deriving DecidableEq, Repr

/-- `Results::new()`: a zero-initialized `Results` instance. -/
def Results.new : Results := { lines_of_code := 0, empty_lines := 0 }

/-- Rust's `str::trim`: remove leading and trailing whitespace. -/
def trimChars (l : Str) : Str :=
  ((l.dropWhile Char.isWhitespace).reverse.dropWhile Char.isWhitespace).reverse

/-- The loop of `count_lines_in_file`: walk the line reads, incrementing
`empty_lines` when the trimmed line is empty and `lines_of_code` otherwise;
on a read error, return `Results::new()` immediately (skip the file). -/
def countLinesGo : List LineRead → Results → Results
  | [], res => res
  | .err :: _, _ => Results.new
  | .ok line :: rest, res =>
    if (trimChars line).isEmpty then
      countLinesGo rest { res with empty_lines := res.empty_lines + 1 }
    else
      countLinesGo rest { res with lines_of_code := res.lines_of_code + 1 }

/-- `count_lines_in_file`: count the number of empty and non-empty lines in a
file (the open is assumed to succeed; a failed open aborts the whole run and
is outside this model). -/
def count_lines_in_file (f : RFile) : Results :=
  countLinesGo f.lines Results.new

/-- The `reduce_fn` closure of `count_lines`: componentwise sum of two
`Results` values. -/
def reduce_fn (a b : Results) : Results :=
  { lines_of_code := a.lines_of_code + b.lines_of_code,
    empty_lines := a.empty_lines + b.empty_lines }

/-- `count_lines` with `threads <= 1`: sequential iterator fold. -/
def count_lines (files : List RFile) : Results :=
  (files.map count_lines_in_file).foldl reduce_fn Results.new

/-- A rayon scheduling/split tree: leaves are contiguous chunks of the file
list processed sequentially, nodes are join points where partial results are
reduced. Quantifying over all trees covers every thread count and every
scheduling order. -/
inductive Sched where
  | leaf (chunk : List RFile)
  | node (l r : Sched)

/-- The file list a split tree processes, in order. -/
def Sched.files : Sched → List RFile
  | .leaf chunk => chunk
  | .node l r => l.files ++ r.files

/-- `count_lines` with `threads > 1`: rayon's `par_iter().map(...).reduce(Results::new, reduce_fn)`
under split tree `t` — each chunk is folded with `reduce_fn` from the
identity, and partial results are combined with `reduce_fn`. -/
def count_lines_par : Sched → Results
  | .leaf chunk => (chunk.map count_lines_in_file).foldl reduce_fn Results.new
  | .node l r => reduce_fn (count_lines_par l) (count_lines_par r)

/-- `OsStr::to_str`: `some` of the character list when every unit is a valid
character, `none` (conversion failure) otherwise. -/
def osToStr : OsStr → Option Str
  | [] => some []
  | .ch c :: rest => (osToStr rest).map (fun s => c :: s)
  | .invalid :: _ => none

/-- The split underlying `Path::extension`: the portions of the file name
before and after the last `.`, or `none` when the name has no `.`
(`rsplitn(2, b'.')` in the Rust standard library). -/
def splitAtLastDot (f : OsStr) : Option (OsStr × OsStr) :=
  if OsUnit.ch '.' ∈ f then
    some (((f.reverse.dropWhile (fun u => u ≠ OsUnit.ch '.')).drop 1).reverse,
          (f.reverse.takeWhile (fun u => u ≠ OsUnit.ch '.')).reverse)
  else none

/-- `Path::extension`: `none` when there is no file name, when the file name
is `".."`, when it contains no `.`, or when the portion before the last `.`
is empty (hidden files such as `".gitignore"`); otherwise the portion after
the last `.`. -/
def RPath.extension (p : RPath) : Option OsStr :=
  match p.fileName with
  | none => none
  | some f =>
    if f = [OsUnit.ch '.', OsUnit.ch '.'] then none
    else
      match splitAtLastDot f with
      | none => none
      | some (before, after) => if before = [] then none else some after

/-- `get_ext`: the extension of a path, via
`path.extension().map(|p| p.to_str().unwrap_or("")).unwrap_or("")`. -/
def get_ext (p : RPath) : Str :=
  match p.extension with
  | some e => (osToStr e).getD []
  | none => []

/-- The by-extension aggregate: Rust's `HashMap<String, Results>` modelled as
an association list with unique keys. -/
abbrev ExtMap := List (Str × Results)

/-- The `reduce_fn` closure of `count_lines_by_ext`:
`map.entry(ext).and_modify(add the counts).or_insert(new_res)`. -/
def reduce_fn_by_ext : ExtMap → Str × Results → ExtMap
  | [], (k, v) => [(k, v)]
  | (k', v') :: rest, (k, v) =>
    if k' = k then
      (k', { lines_of_code := v'.lines_of_code + v.lines_of_code,
             empty_lines := v'.empty_lines + v.empty_lines }) :: rest
    else
      (k', v') :: reduce_fn_by_ext rest (k, v)

/-- `count_lines_by_ext` with `threads <= 1`: sequential fold of
`(get_ext(p), count_lines_in_file(p))` pairs into the map. -/
def count_lines_by_ext (files : List RFile) : ExtMap :=
  (files.map (fun f => (get_ext f.path, count_lines_in_file f))).foldl
    reduce_fn_by_ext []

/-- The merge closure of the parallel branch of `count_lines_by_ext`: fold
every entry of `b` into `a` with `reduce_fn_by_ext`. -/
def merge_maps (a b : ExtMap) : ExtMap :=
  b.foldl reduce_fn_by_ext a

/-- `count_lines_by_ext` with `threads > 1`: rayon's
`par_iter().map(...).fold(HashMap::new, reduce_fn).reduce(HashMap::new, merge)`
under split tree `t` — each chunk builds its own map sequentially, and
partial maps are merged entry by entry. -/
def count_lines_by_ext_par : Sched → ExtMap
  | .leaf chunk =>
    (chunk.map (fun f => (get_ext f.path, count_lines_in_file f))).foldl
      reduce_fn_by_ext []
  | .node l r => merge_maps (count_lines_by_ext_par l) (count_lines_by_ext_par r)

/-- Lookup of a key in the modelled `HashMap`. -/
def lookupExt : ExtMap → Str → Option Results
  | [], _ => none
  | (k', v) :: rest, k => if k' = k then some v else lookupExt rest k

/-- A filesystem tree: a regular file with its contents, or a directory with
its entries. -/
inductive FsTree where
  | file (f : RFile)
  | dir (entries : List FsTree)

mutual

/-- `find_all_files`: recursively explore a directory, appending every
non-directory entry to the accumulator; a root that is not a directory
contributes nothing. -/
def find_all_files : FsTree → List RFile → List RFile
  | .file _, files => files
  | .dir es, files => find_in_entries es files

/-- The `for entry in fs::read_dir(path)` loop of `find_all_files`: recurse
into directory entries, push file entries. -/
def find_in_entries : List FsTree → List RFile → List RFile
  | [], files => files
  | .dir es :: rest, files => find_in_entries rest (find_all_files (.dir es) files)
  | .file f :: rest, files => find_in_entries rest (files ++ [f])

end

/-- Sum of all the `Results` values of a by-extension map, under the
`reduce_fn` combine operation. -/
def sum_results (m : ExtMap) : Results :=
  (m.map Prod.snd).foldl reduce_fn Results.new

/-- Modelled from the spec: "Extension extraction: the portion of the file
name after the last `.` separator". -/
def afterLastDot (cs : Str) : Str :=
  (cs.reverse.takeWhile (fun c => c ≠ '.')).reverse

/-- The portion of a file name before its last `.`. -/
def beforeLastDot (cs : Str) : Str :=
  ((cs.reverse.dropWhile (fun c => c ≠ '.')).drop 1).reverse

/-- Modelled from the spec: the claimed extension key — "the portion of the
file name after the last `.` separator; files with no `.` in their name map
to the empty-string key". -/
def specExtKey (cs : Str) : Str :=
  if '.' ∈ cs then afterLastDot cs else []

/-! ### Algebraic properties of the combine operation -/

lemma reduce_fn_assoc (a b c : Results) :
    reduce_fn (reduce_fn a b) c = reduce_fn a (reduce_fn b c) := by
  simp [reduce_fn, Nat.add_assoc]

lemma reduce_fn_comm (a b : Results) : reduce_fn a b = reduce_fn b a := by
  simp [reduce_fn, Nat.add_comm]

lemma reduce_fn_zero_left (a : Results) : reduce_fn Results.new a = a := by
  simp [reduce_fn, Results.new]

lemma reduce_fn_zero_right (a : Results) : reduce_fn a Results.new = a := by
  simp [reduce_fn, Results.new]

lemma foldl_reduce_shift (l : List Results) (a : Results) :
    l.foldl reduce_fn a = reduce_fn a (l.foldl reduce_fn Results.new) := by
  induction l generalizing a with
  | nil => simp [reduce_fn_zero_right]
  | cons x l ih =>
    simp only [List.foldl_cons]
    rw [ih (reduce_fn a x), ih (reduce_fn Results.new x), reduce_fn_zero_left,
      reduce_fn_assoc]

lemma count_lines_append (xs ys : List RFile) :
    count_lines (xs ++ ys) = reduce_fn (count_lines xs) (count_lines ys) := by
  simp only [count_lines, List.map_append, List.foldl_append]
  rw [foldl_reduce_shift (ys.map count_lines_in_file)]

lemma count_lines_cons (f : RFile) (fs : List RFile) :
    count_lines (f :: fs) = reduce_fn (count_lines_in_file f) (count_lines fs) := by
  simp only [count_lines, List.map_cons, List.foldl_cons]
  rw [foldl_reduce_shift, reduce_fn_zero_left]

/-! ### Line classification -/

lemma countLinesGo_err (pre : List Str) (rest : List LineRead) (res : Results) :
    countLinesGo (pre.map LineRead.ok ++ LineRead.err :: rest) res = Results.new := by
  induction pre generalizing res with
  | nil => rfl
  | cons l pre ih =>
    simp only [List.map_cons, List.cons_append, countLinesGo]
    split <;> exact ih _

lemma trimChars_eq_nil_iff (l : Str) :
    trimChars l = [] ↔ ∀ c ∈ l, c.isWhitespace = true := by
  unfold trimChars
  rw [List.reverse_eq_nil_iff, List.dropWhile_eq_nil_iff]
  constructor
  · intro h c hc
    have hsplit : c ∈ l.takeWhile Char.isWhitespace ++ l.dropWhile Char.isWhitespace := by
      rw [List.takeWhile_append_dropWhile]; exact hc
    rcases List.mem_append.1 hsplit with h1 | h1
    · exact List.mem_takeWhile_imp h1
    · exact h c (List.mem_reverse.2 h1)
  · intro h c hc
    exact h c ((List.dropWhile_sublist Char.isWhitespace).subset (List.mem_reverse.1 hc))

/-- C6: the `reduce_fn` combine operation (componentwise sum of
`lines_of_code` and `empty_lines`) is associative and commutative, and the
zero statistic `Results::new()` is its two-sided identity element. -/
theorem claim_reduce_fn_monoid :
    (∀ a b c : Results, reduce_fn (reduce_fn a b) c = reduce_fn a (reduce_fn b c)) ∧
    (∀ a b : Results, reduce_fn a b = reduce_fn b a) ∧
    (∀ a : Results, reduce_fn Results.new a = a ∧ reduce_fn a Results.new = a) :=
  ⟨reduce_fn_assoc, reduce_fn_comm, fun a => ⟨reduce_fn_zero_left a, reduce_fn_zero_right a⟩⟩

/-- C2: a file whose open succeeds but whose line-by-line read fails at some
line contributes exactly the identity statistic `{0,0}`, discarding all lines
already counted before the failure; the run continues — the aggregate over a
list containing such a file equals the aggregate with that file dropped. -/
theorem claim_read_error_discards_file (p : RPath) (pre : List Str) (rest : List LineRead) :
    count_lines_in_file ⟨p, pre.map LineRead.ok ++ LineRead.err :: rest⟩ = Results.new ∧
    ∀ fs1 fs2 : List RFile,
      count_lines (fs1 ++ ⟨p, pre.map LineRead.ok ++ LineRead.err :: rest⟩ :: fs2) =
        count_lines (fs1 ++ fs2) := by
  refine ⟨countLinesGo_err pre rest Results.new, fun fs1 fs2 => ?_⟩
  rw [count_lines_append, count_lines_append, count_lines_cons,
    show count_lines_in_file ⟨p, pre.map LineRead.ok ++ LineRead.err :: rest⟩ = Results.new
      from countLinesGo_err pre rest Results.new, reduce_fn_zero_left]

/-- C4: the classifier counts a line as empty exactly when it has zero length
after trimming leading and trailing whitespace (equivalently, when every
character of the line is whitespace), and counts it as non-empty exactly when
it contains at least one non-whitespace character. -/
theorem claim_line_classification (p : RPath) (l : Str) :
    (count_lines_in_file ⟨p, [LineRead.ok l]⟩ = { lines_of_code := 0, empty_lines := 1 } ↔
      (trimChars l).isEmpty = true) ∧
    ((trimChars l).isEmpty = true ↔ ∀ c ∈ l, c.isWhitespace = true) ∧
    (count_lines_in_file ⟨p, [LineRead.ok l]⟩ = { lines_of_code := 1, empty_lines := 0 } ↔
      ∃ c ∈ l, c.isWhitespace = false) := by
  have hcount : count_lines_in_file ⟨p, [LineRead.ok l]⟩ =
      if (trimChars l).isEmpty then { lines_of_code := 0, empty_lines := 1 }
      else { lines_of_code := 1, empty_lines := 0 } := by
    simp only [count_lines_in_file, countLinesGo, Results.new]
  have htrim : (trimChars l).isEmpty = true ↔ ∀ c ∈ l, c.isWhitespace = true := by
    rw [List.isEmpty_iff]; exact trimChars_eq_nil_iff l
  refine ⟨?_, htrim, ?_⟩
  · rw [hcount]
    by_cases hb : (trimChars l).isEmpty = true
    · rw [if_pos hb]
      exact iff_of_true rfl hb
    · rw [if_neg hb]
      exact iff_of_false (fun h => Nat.one_ne_zero (congrArg Results.lines_of_code h)) hb
  · rw [hcount]
    by_cases hb : (trimChars l).isEmpty = true
    · rw [if_pos hb]
      apply iff_of_false
      · intro h
        exact Nat.zero_ne_one (congrArg Results.lines_of_code h)
      · rintro ⟨c, hc, hcw⟩
        rw [htrim.1 hb c hc] at hcw
        simp at hcw
    · rw [if_neg hb]
      have hex : ∃ c ∈ l, c.isWhitespace = false := by
        have hnall : ¬ ∀ c ∈ l, c.isWhitespace = true := fun hall => hb (htrim.2 hall)
        push_neg at hnall
        obtain ⟨c, hc, hcw⟩ := hnall
        exact ⟨c, hc, by simpa using hcw⟩
      exact iff_of_true rfl hex

/-- C8: a root path that is not a directory yields an empty file list from
`find_all_files`, and over the empty list the global aggregate is `{0,0}` and
the by-extension mapping is empty. -/
theorem claim_non_directory_root (f : RFile) :
    find_all_files (FsTree.file f) [] = [] ∧
    count_lines [] = Results.new ∧
    count_lines_by_ext [] = [] :=
  ⟨rfl, rfl, rfl⟩

/-! ### Abstract semantics of the by-extension map -/

/-- Folding one value into an optional map entry: the effect of
`entry(k).and_modify(...).or_insert(v)` on the value stored at `k`. -/
def opAdd (o : Option Results) (v : Results) : Option Results :=
  some (match o with
    | none => v
    | some e => reduce_fn e v)

/-- Pointwise union of two optional map entries under `reduce_fn`. -/
def opUnion (a b : Option Results) : Option Results :=
  match a, b with
  | none, b => b
  | some e, none => some e
  | some e, some v => some (reduce_fn e v)

/-- The values carried by the pairs of `ps` whose key is `k`, in order. -/
def gatherVals (k : Str) (ps : List (Str × Results)) : List Results :=
  (ps.filter (fun kv => decide (kv.1 = k))).map Prod.snd

/-- The keys of a modelled map, in entry order. -/
def keysOf (m : ExtMap) : List Str := m.map Prod.fst

lemma lookupExt_add (m : ExtMap) (k : Str) (v : Results) (k' : Str) :
    lookupExt (reduce_fn_by_ext m (k, v)) k' =
      if k = k' then opAdd (lookupExt m k') v else lookupExt m k' := by
  induction m with
  | nil =>
    by_cases h : k = k' <;> simp [reduce_fn_by_ext, lookupExt, opAdd, h]
  | cons hd tl ih =>
    obtain ⟨k₀, v₀⟩ := hd
    by_cases h0 : k₀ = k
    · subst h0
      by_cases h' : k₀ = k' <;>
        simp [reduce_fn_by_ext, lookupExt, opAdd, h', reduce_fn]
    · by_cases h' : k₀ = k'
      · have hkk' : ¬ k = k' := fun he => h0 (h'.trans he.symm)
        have hk'k : ¬ k' = k := fun he => hkk' he.symm
        simp [reduce_fn_by_ext, lookupExt, h0, h', hkk', hk'k]
      · simp [reduce_fn_by_ext, lookupExt, h0, h', ih]

lemma lookupExt_foldPairs (ps : List (Str × Results)) (m : ExtMap) (k : Str) :
    lookupExt (ps.foldl reduce_fn_by_ext m) k =
      (gatherVals k ps).foldl opAdd (lookupExt m k) := by
  induction ps generalizing m with
  | nil => rfl
  | cons hd ps ih =>
    obtain ⟨k₀, v₀⟩ := hd
    simp only [List.foldl_cons]
    rw [ih]
    by_cases h : k₀ = k
    · subst h
      simp [gatherVals, List.filter_cons, lookupExt_add]
    · simp [gatherVals, List.filter_cons, h, lookupExt_add]

lemma foldl_opAdd_some (vs : List Results) (e : Results) :
    vs.foldl opAdd (some e) = some (vs.foldl reduce_fn e) := by
  induction vs generalizing e with
  | nil => rfl
  | cons v vs ih =>
    simp only [List.foldl_cons]
    exact ih (reduce_fn e v)

lemma foldl_opAdd_split (vs : List Results) (o : Option Results) :
    vs.foldl opAdd o = opUnion o (vs.foldl opAdd none) := by
  cases o with
  | none => rfl
  | some e =>
    cases vs with
    | nil => rfl
    | cons v vs =>
      show vs.foldl opAdd (opAdd (some e) v) = opUnion (some e) (vs.foldl opAdd (opAdd none v))
      rw [show opAdd (some e) v = some (reduce_fn e v) from rfl,
        show opAdd none v = some v from rfl, foldl_opAdd_some, foldl_opAdd_some]
      show some (vs.foldl reduce_fn (reduce_fn e v)) = some (reduce_fn e (vs.foldl reduce_fn v))
      rw [foldl_reduce_shift vs (reduce_fn e v), foldl_reduce_shift vs v, reduce_fn_assoc]

lemma foldl_opAdd_toList (o o' : Option Results) :
    (o'.toList).foldl opAdd o = opUnion o o' := by
  cases o' <;> cases o <;> rfl

lemma reduce_fn_by_ext_nil (k : Str) (v : Results) :
    reduce_fn_by_ext [] (k, v) = [(k, v)] := rfl

lemma reduce_fn_by_ext_cons (k₀ : Str) (v₀ : Results) (rest : ExtMap)
    (k : Str) (v : Results) :
    reduce_fn_by_ext ((k₀, v₀) :: rest) (k, v) =
      if k₀ = k then (k₀, reduce_fn v₀ v) :: rest
      else (k₀, v₀) :: reduce_fn_by_ext rest (k, v) := rfl

lemma keysOf_cons (k₀ : Str) (v₀ : Results) (rest : ExtMap) :
    keysOf ((k₀, v₀) :: rest) = k₀ :: keysOf rest := rfl

lemma mem_keys_add (m : ExtMap) (k : Str) (v : Results) (x : Str) :
    x ∈ keysOf (reduce_fn_by_ext m (k, v)) ↔ x ∈ keysOf m ∨ x = k := by
  induction m with
  | nil => simp [reduce_fn_by_ext_nil, keysOf]
  | cons hd tl ih =>
    obtain ⟨k₀, v₀⟩ := hd
    by_cases h : k₀ = k
    · subst h
      rw [reduce_fn_by_ext_cons, if_pos rfl, keysOf_cons, keysOf_cons]
      simp only [List.mem_cons]
      tauto
    · rw [reduce_fn_by_ext_cons, if_neg h, keysOf_cons, keysOf_cons]
      simp only [List.mem_cons, ih]
      tauto

lemma keys_nodup_add (m : ExtMap) (k : Str) (v : Results)
    (h : (keysOf m).Nodup) : (keysOf (reduce_fn_by_ext m (k, v))).Nodup := by
  induction m with
  | nil => simp [reduce_fn_by_ext_nil, keysOf]
  | cons hd tl ih =>
    obtain ⟨k₀, v₀⟩ := hd
    rw [keysOf_cons, List.nodup_cons] at h
    by_cases hk : k₀ = k
    · subst hk
      rw [reduce_fn_by_ext_cons, if_pos rfl, keysOf_cons, List.nodup_cons]
      exact h
    · rw [reduce_fn_by_ext_cons, if_neg hk, keysOf_cons, List.nodup_cons]
      refine ⟨?_, ih h.2⟩
      intro hmem
      rcases (mem_keys_add tl k v k₀).1 hmem with h1 | h1
      · exact h.1 h1
      · exact hk h1

lemma keys_nodup_foldPairs (ps : List (Str × Results)) (m : ExtMap)
    (h : (keysOf m).Nodup) : (keysOf (ps.foldl reduce_fn_by_ext m)).Nodup := by
  induction ps generalizing m with
  | nil => exact h
  | cons hd ps ih =>
    obtain ⟨k, v⟩ := hd
    exact ih _ (keys_nodup_add m k v h)

lemma keys_nodup_count_lines_by_ext (files : List RFile) :
    (keysOf (count_lines_by_ext files)).Nodup :=
  keys_nodup_foldPairs _ [] List.nodup_nil

lemma keys_nodup_par (t : Sched) :
    (keysOf (count_lines_by_ext_par t)).Nodup := by
  induction t with
  | leaf chunk => exact keys_nodup_foldPairs _ [] List.nodup_nil
  | node l r ihl ihr => exact keys_nodup_foldPairs _ _ ihl

lemma gather_eq_nil_of_not_mem (m : ExtMap) (k : Str) (h : k ∉ keysOf m) :
    gatherVals k m = [] := by
  induction m with
  | nil => rfl
  | cons hd tl ih =>
    obtain ⟨k₀, v₀⟩ := hd
    rw [keysOf_cons, List.mem_cons] at h
    push_neg at h
    simp only [gatherVals, List.filter_cons]
    rw [if_neg (by simpa using fun he => h.1 he.symm)]
    exact ih h.2

lemma gather_eq_toList_of_nodup (m : ExtMap) (k : Str)
    (h : (keysOf m).Nodup) : gatherVals k m = (lookupExt m k).toList := by
  induction m with
  | nil => rfl
  | cons hd tl ih =>
    obtain ⟨k₀, v₀⟩ := hd
    rw [keysOf_cons, List.nodup_cons] at h
    by_cases hk : k₀ = k
    · subst hk
      have hnil : gatherVals k₀ tl = [] :=
        gather_eq_nil_of_not_mem tl k₀ h.1
      simp only [gatherVals, List.filter_cons] at hnil ⊢
      rw [if_pos (by simp), List.map_cons]
      simp only [lookupExt, if_pos rfl, Option.toList_some]
      rw [show ((tl.filter (fun kv => decide (kv.1 = k₀))).map Prod.snd : List Results) =
        gatherVals k₀ tl from rfl, gather_eq_nil_of_not_mem tl k₀ h.1]
      simp
    · simp only [gatherVals, List.filter_cons]
      rw [if_neg (by simpa using hk)]
      simp only [lookupExt, if_neg hk]
      exact ih h.2

lemma gather_append (k : Str) (ps qs : List (Str × Results)) :
    gatherVals k (ps ++ qs) = gatherVals k ps ++ gatherVals k qs := by
  simp [gatherVals, List.filter_append]

lemma lookup_count_lines_by_ext (files : List RFile) (k : Str) :
    lookupExt (count_lines_by_ext files) k =
      (gatherVals k (files.map (fun f => (get_ext f.path, count_lines_in_file f)))).foldl
        opAdd none := by
  unfold count_lines_by_ext
  rw [lookupExt_foldPairs]
  rfl

lemma lookup_seq_append (xs ys : List RFile) (k : Str) :
    lookupExt (count_lines_by_ext (xs ++ ys)) k =
      opUnion (lookupExt (count_lines_by_ext xs) k)
        (lookupExt (count_lines_by_ext ys) k) := by
  rw [lookup_count_lines_by_ext, lookup_count_lines_by_ext, lookup_count_lines_by_ext,
    List.map_append, gather_append, List.foldl_append, foldl_opAdd_split]

lemma count_lines_par_eq (t : Sched) : count_lines_par t = count_lines t.files := by
  induction t with
  | leaf chunk => rfl
  | node l r ihl ihr =>
    show reduce_fn (count_lines_par l) (count_lines_par r) = count_lines (l.files ++ r.files)
    rw [ihl, ihr, count_lines_append]

lemma lookup_par_eq_seq (t : Sched) (k : Str) :
    lookupExt (count_lines_by_ext_par t) k = lookupExt (count_lines_by_ext t.files) k := by
  induction t with
  | leaf chunk => rfl
  | node l r ihl ihr =>
    show lookupExt (merge_maps (count_lines_by_ext_par l) (count_lines_by_ext_par r)) k = _
    rw [show Sched.files (.node l r) = l.files ++ r.files from rfl, lookup_seq_append,
      ← ihl, ← ihr]
    unfold merge_maps
    rw [lookupExt_foldPairs, gather_eq_toList_of_nodup _ _ (keys_nodup_par r),
      foldl_opAdd_toList]

/-- C1: for every file list and every parallel schedule (any thread count,
any splitting and merge order), the parallel executor produces exactly the
sequential aggregate — in global mode as an equal `Results` value, and in
by-extension mode as an element-for-element identical key/value mapping. -/
theorem claim_parallel_equals_sequential (t : Sched) :
    count_lines_par t = count_lines t.files ∧
    ∀ ext, lookupExt (count_lines_by_ext_par t) ext =
      lookupExt (count_lines_by_ext t.files) ext :=
  ⟨count_lines_par_eq t, fun ext => lookup_par_eq_seq t ext⟩

/-! ### Sum of the by-extension values -/

lemma sum_results_nil : sum_results [] = Results.new := rfl

lemma sum_results_cons (k : Str) (v : Results) (m : ExtMap) :
    sum_results ((k, v) :: m) = reduce_fn v (sum_results m) := by
  simp only [sum_results, List.map_cons, List.foldl_cons]
  rw [reduce_fn_zero_left, foldl_reduce_shift]

lemma sum_results_add (m : ExtMap) (k : Str) (v : Results) :
    sum_results (reduce_fn_by_ext m (k, v)) = reduce_fn (sum_results m) v := by
  induction m with
  | nil =>
    rw [reduce_fn_by_ext_nil, sum_results_cons, sum_results_nil,
      reduce_fn_zero_right, reduce_fn_zero_left]
  | cons hd tl ih =>
    obtain ⟨k₀, v₀⟩ := hd
    by_cases h : k₀ = k
    · rw [reduce_fn_by_ext_cons, if_pos h, sum_results_cons, sum_results_cons,
        reduce_fn_assoc, reduce_fn_assoc, reduce_fn_comm v (sum_results tl)]
    · rw [reduce_fn_by_ext_cons, if_neg h, sum_results_cons, ih, sum_results_cons,
        reduce_fn_assoc]

lemma sum_results_foldPairs (ps : List (Str × Results)) (m : ExtMap) :
    sum_results (ps.foldl reduce_fn_by_ext m) =
      reduce_fn (sum_results m) (sum_results ps) := by
  induction ps generalizing m with
  | nil => rw [List.foldl_nil, sum_results_nil, reduce_fn_zero_right]
  | cons hd ps ih =>
    obtain ⟨k, v⟩ := hd
    simp only [List.foldl_cons]
    rw [ih, sum_results_add, sum_results_cons, reduce_fn_assoc]

lemma sum_count_lines_by_ext (files : List RFile) :
    sum_results (count_lines_by_ext files) = count_lines files := by
  unfold count_lines_by_ext
  rw [sum_results_foldPairs, sum_results_nil, reduce_fn_zero_left]
  simp only [sum_results, count_lines, List.map_map]
  rw [show (Prod.snd ∘ fun f : RFile => (get_ext f.path, count_lines_in_file f)) =
    count_lines_in_file from rfl]

lemma sum_count_lines_by_ext_par (t : Sched) :
    sum_results (count_lines_by_ext_par t) = count_lines_par t := by
  induction t with
  | leaf chunk => exact sum_count_lines_by_ext chunk
  | node l r ihl ihr =>
    show sum_results
      (merge_maps (count_lines_by_ext_par l) (count_lines_by_ext_par r)) = _
    unfold merge_maps
    rw [sum_results_foldPairs, ihl, ihr]
    rfl

/-- C5: summing the `FileStat` values over all entries of the by-extension
result with the combine operation yields exactly the global result, for every
file list (sequential mode) and every parallel schedule. -/
theorem claim_extension_partition_complete :
    (∀ files : List RFile, sum_results (count_lines_by_ext files) = count_lines files) ∧
    (∀ t : Sched, sum_results (count_lines_by_ext_par t) = count_lines_par t) :=
  ⟨sum_count_lines_by_ext, sum_count_lines_by_ext_par⟩

/-! ### Key set of the by-extension result -/

lemma foldl_opAdd_isSome (vs : List Results) :
    (vs.foldl opAdd none).isSome = true ↔ vs ≠ [] := by
  cases vs with
  | nil => simp
  | cons v vs =>
    rw [List.foldl_cons, show opAdd none v = some v from rfl, foldl_opAdd_some]
    simp

lemma gatherVals_cons (k : Str) (hd : Str × Results) (ps : List (Str × Results)) :
    gatherVals k (hd :: ps) =
      if hd.1 = k then hd.2 :: gatherVals k ps else gatherVals k ps := by
  unfold gatherVals
  rw [List.filter_cons]
  by_cases h : hd.1 = k
  · rw [if_pos (decide_eq_true h), if_pos h, List.map_cons]
  · rw [if_neg (fun hc => h (of_decide_eq_true hc)), if_neg h]

lemma gather_ne_nil_iff (k : Str) (ps : List (Str × Results)) :
    gatherVals k ps ≠ [] ↔ ∃ kv ∈ ps, kv.1 = k := by
  induction ps with
  | nil =>
    exact ⟨fun h => absurd rfl h, fun ⟨kv, hkv, _⟩ => absurd hkv (List.not_mem_nil kv)⟩
  | cons hd ps ih =>
    rw [gatherVals_cons]
    by_cases h : hd.1 = k
    · rw [if_pos h]
      constructor
      · intro _
        exact ⟨hd, List.mem_cons_self hd ps, h⟩
      · intro _
        exact List.cons_ne_nil _ _
    · rw [if_neg h, ih]
      constructor
      · rintro ⟨kv, hkv, hk⟩
        exact ⟨kv, List.mem_cons_of_mem _ hkv, hk⟩
      · rintro ⟨kv, hkv, hk⟩
        rcases List.mem_cons.1 hkv with heq | hkv
        · exact absurd (heq ▸ hk) h
        · exact ⟨kv, hkv, hk⟩

/-- C10: the key set of the by-extension mapping is exactly
`{ get_ext p | p in the file list }` — a key is present iff it is the
extension of some input file, for every file list (sequential mode) and
every parallel schedule. -/
theorem claim_by_ext_key_set (files : List RFile) (t : Sched) (ext : Str) :
    ((lookupExt (count_lines_by_ext files) ext).isSome = true ↔
      ext ∈ files.map (fun f => get_ext f.path)) ∧
    ((lookupExt (count_lines_by_ext_par t) ext).isSome = true ↔
      ext ∈ t.files.map (fun f => get_ext f.path)) := by
  have hseq : ∀ fs : List RFile,
      (lookupExt (count_lines_by_ext fs) ext).isSome = true ↔
        ext ∈ fs.map (fun f => get_ext f.path) := by
    intro fs
    rw [lookup_count_lines_by_ext, foldl_opAdd_isSome, gather_ne_nil_iff]
    constructor
    · rintro ⟨kv, hkv, hk⟩
      rcases List.mem_map.1 hkv with ⟨f, hf, rfl⟩
      exact List.mem_map.2 ⟨f, hf, hk⟩
    · intro h
      rcases List.mem_map.1 h with ⟨f, hf, hk⟩
      exact ⟨(get_ext f.path, count_lines_in_file f), List.mem_map.2 ⟨f, hf, rfl⟩, hk⟩
  exact ⟨hseq files, by rw [lookup_par_eq_seq]; exact hseq t.files⟩

/-! ### Characterization of `get_ext` -/

lemma osToStr_map_ch (cs : Str) : osToStr (cs.map OsUnit.ch) = some cs := by
  induction cs with
  | nil => rfl
  | cons c cs ih => simp [osToStr, ih]

lemma mem_map_ch_dot (cs : Str) :
    OsUnit.ch '.' ∈ cs.map OsUnit.ch ↔ '.' ∈ cs := by
  simp

lemma dropWhile_ne_dot_map (l : Str) :
    (l.map OsUnit.ch).dropWhile (fun u => u ≠ OsUnit.ch '.') =
      (l.dropWhile (fun c => c ≠ '.')).map OsUnit.ch := by
  rw [List.dropWhile_map]
  congr 1
  congr 1
  funext c
  simp [Function.comp]

lemma takeWhile_ne_dot_map (l : Str) :
    (l.map OsUnit.ch).takeWhile (fun u => u ≠ OsUnit.ch '.') =
      (l.takeWhile (fun c => c ≠ '.')).map OsUnit.ch := by
  rw [List.takeWhile_map]
  congr 1
  congr 1
  funext c
  simp [Function.comp]

lemma splitAtLastDot_map_ch (cs : Str) :
    splitAtLastDot (cs.map OsUnit.ch) =
      if '.' ∈ cs
      then some ((beforeLastDot cs).map OsUnit.ch, (afterLastDot cs).map OsUnit.ch)
      else none := by
  unfold splitAtLastDot beforeLastDot afterLastDot
  by_cases hdot : '.' ∈ cs
  · rw [if_pos ((mem_map_ch_dot cs).2 hdot), if_pos hdot, ← List.map_reverse,
      dropWhile_ne_dot_map, takeWhile_ne_dot_map, ← List.map_drop,
      ← List.map_reverse, ← List.map_reverse]
  · rw [if_neg (fun hc => hdot ((mem_map_ch_dot cs).1 hc)), if_neg hdot]

lemma extension_some (f : OsStr) :
    RPath.extension ⟨some f⟩ =
      if f = [OsUnit.ch '.', OsUnit.ch '.'] then none
      else
        match splitAtLastDot f with
        | none => none
        | some (before, after) => if before = [] then none else some after := rfl

lemma get_ext_eq (p : RPath) :
    get_ext p =
      match p.extension with
      | some e => (osToStr e).getD []
      | none => [] := rfl

lemma extension_map_ch (cs : Str) (hdd : cs ≠ ['.', '.']) :
    RPath.extension ⟨some (cs.map OsUnit.ch)⟩ =
      if '.' ∈ cs ∧ beforeLastDot cs ≠ []
      then some ((afterLastDot cs).map OsUnit.ch) else none := by
  have hne : cs.map OsUnit.ch ≠ [OsUnit.ch '.', OsUnit.ch '.'] := fun h =>
    hdd (List.map_injective_iff.2 (fun a b hab => OsUnit.ch.inj hab) h)
  rw [extension_some, if_neg hne, splitAtLastDot_map_ch]
  by_cases hdot : '.' ∈ cs
  · rw [if_pos hdot]
    show (if (beforeLastDot cs).map OsUnit.ch = [] then none
          else some ((afterLastDot cs).map OsUnit.ch)) =
        if '.' ∈ cs ∧ beforeLastDot cs ≠ []
        then some ((afterLastDot cs).map OsUnit.ch) else none
    by_cases hb : beforeLastDot cs = []
    · rw [if_pos (by rw [hb]; rfl), if_neg (fun h => h.2 hb)]
    · rw [if_neg (fun h => hb (List.map_eq_nil_iff.1 h)), if_pos ⟨hdot, hb⟩]
  · rw [if_neg hdot, if_neg (fun h => hdot h.1)]

/-- C3 counterexample: the file name `".gitignore"` contains a `.`, and the
portion after its last `.` is `"gitignore"`, yet `get_ext` maps it to the
empty-string key — so the key is not always the portion after the last `.`,
and a name containing a `.` can still map to the empty-string key. -/
theorem claim_ext_key_counterexample :
    get_ext ⟨some (".gitignore".toList.map OsUnit.ch)⟩ = [] ∧
    specExtKey (".gitignore".toList) = "gitignore".toList ∧
    '.' ∈ ".gitignore".toList := by
  refine ⟨?_, ?_, ?_⟩ <;> decide

/-- C3 amended: for a path whose file name is a valid-UTF-8 string `cs`, the
extension key is the portion of the file name after the last `.` when `cs`
contains a `.` and the portion before that last `.` is non-empty; otherwise
(no `.` at all, or the only `.` is the leading character, as in hidden files
like `".gitignore"`) the key is the empty string. In particular the
empty-string key also arises for dot-initial names and for names ending in
`.` (whose after-portion is empty), not only for names with no `.`. A path
with no file name also maps to the empty-string key. -/
theorem claim_ext_key_amended (cs : Str) :
    get_ext ⟨some (cs.map OsUnit.ch)⟩ =
      (if '.' ∈ cs ∧ beforeLastDot cs ≠ [] then afterLastDot cs else []) ∧
    get_ext ⟨none⟩ = [] := by
  refine ⟨?_, rfl⟩
  by_cases hdd : cs = ['.', '.']
  · subst hdd
    decide
  · rw [get_ext_eq, extension_map_ch cs hdd]
    by_cases h : '.' ∈ cs ∧ beforeLastDot cs ≠ []
    · rw [if_pos h, if_pos h]
      show (osToStr ((afterLastDot cs).map OsUnit.ch)).getD [] = afterLastDot cs
      rw [osToStr_map_ch]
      rfl
    · rw [if_neg h, if_neg h]

/-- C9: a path whose extension exists but is not valid UTF-8 is mapped by
`get_ext` to the empty string, the same key as paths with no extension at
all; `get_ext` is total and never fails. -/
theorem claim_invalid_utf8_extension (p : RPath) (e : OsStr)
    (h1 : p.extension = some e) (h2 : osToStr e = none) :
    get_ext p = [] ∧ get_ext ⟨none⟩ = [] := by
  refine ⟨?_, rfl⟩
  rw [get_ext_eq, h1]
  show (osToStr e).getD [] = []
  rw [h2]
  rfl

/-- Witness for C9: the file name `"a.<invalid byte>"` has extension
`some [invalid]`, whose UTF-8 conversion fails, and its key is `""`. -/
theorem claim_invalid_utf8_extension_witness :
    get_ext ⟨some [OsUnit.ch 'a', OsUnit.ch '.', OsUnit.invalid]⟩ = [] ∧
    get_ext ⟨none⟩ = [] :=
  claim_invalid_utf8_extension ⟨some [OsUnit.ch 'a', OsUnit.ch '.', OsUnit.invalid]⟩
    [OsUnit.invalid] (by decide) (by decide)
